import Mathlib

/-!
Shallow embedding of the QAOA extra features of Intel-QS
(file src/util/extra_features/qaoa_features.cpp), together with proofs
about the embedded functions.

Modelling conventions.
The embedding is single-process and sequential: the MPI state rank is 0,
the local size of a register equals its global size, and the OpenMP loops
are modelled as sequential folds (every reduction in the source combines
values with commutative, associative operations on the modelled carriers,
so the sequential order is canonical).  C++ assert failures are modelled
as errors of type QaoaError, and an out-of-bounds vector read (undefined
behaviour in the source) is modelled as the dedicated error outOfBounds.
Machine integers (int, size_t) are modelled as Int and Nat; the divisions
performed by the source are guarded by evenness asserts, and on even
dividends C truncating division agrees with Lean integer division, so
Lean division is used.  Floating-point numbers are modelled as real
numbers; complex amplitudes are pairs of reals, multiplied and measured
exactly as std::complex does.
-/

namespace qaoa

/-- Error kinds of the specification; C++ assertion failures are modelled
as these errors, and an out-of-bounds read is the error outOfBounds. -/
inductive QaoaError where
  | invariantViolation
  | sizeMismatch
  | rangeError
  | outOfBounds
deriving DecidableEq

/-- Sequential accumulation of f 0 + f 1 + ... + f (n-1), mirroring a C++
for loop adding into an accumulator initialised to zero. -/
def sumTo {α : Type} [Add α] [Zero α] (f : Nat → α) : Nat → α
  | 0 => 0
  | n + 1 => sumTo f n + f n

theorem sumTo_eq_sum {α : Type} [AddCommMonoid α] (f : Nat → α) (n : Nat) :
    sumTo f n = ∑ i ∈ Finset.range n, f i := by
  induction n with
  | zero => simp [sumTo]
  | succ n ih => rw [sumTo, ih, Finset.sum_range_succ]

theorem sumTo_succ {α : Type} [Add α] [Zero α] (f : Nat → α) (n : Nat) :
    sumTo f (n + 1) = sumTo f n + f n := rfl

theorem sumTo_shift {α : Type} [AddCommMonoid α] (g : Nat → α) (w : Nat) :
    sumTo g (w + 1) = g 0 + sumTo (fun i => g (i + 1)) w := by
  induction w with
  | zero => simp [sumTo]
  | succ w ih =>
    rw [show w + 1 + 1 = (w + 1) + 1 from rfl, sumTo, ih, sumTo, add_assoc]

theorem sumTo_mul_left (c : Nat) (h : Nat → Nat) (w : Nat) :
    sumTo (fun i => c * h i) w = c * sumTo h w := by
  induction w with
  | zero => simp [sumTo]
  | succ w ih => rw [sumTo, ih, sumTo, Nat.mul_add]

/-- Loop body of qaoa::utility::ConvertToBinary: for pos = 0 .. w-1 the
source stores z[pos] = k % 2 and then replaces k by k / 2.  The embedding
takes the unsigned instantiation of the template. -/
def toBitsLoop : Nat → Nat → List Nat
  | _, 0 => []
  | k, w + 1 => k % 2 :: toBitsLoop (k / 2) w

/-- qaoa::utility::ConvertToBinary.  The source first asserts that the
decimal number fits in the given number of bits (modelled as rangeError)
and then runs the conversion loop. -/
def ConvertToBinary (k : Nat) (w : Nat) : Except QaoaError (List Nat) :=
  if 2 ^ w ≤ k then .error .rangeError
  else .ok (toBitsLoop k w)

/-- Decreasing loop of qaoa::utility::ConvertToDecimal: for
pos = z.size()-1 down to 1 the source adds z[pos] into k and doubles k,
and after the loop it adds z[0]. -/
def toDecimalLoop (z : List Nat) (k : Nat) : Nat → Nat
  | 0 => k + z.getD 0 0
  | pos + 1 => toDecimalLoop z ((k + z.getD (pos + 1) 0) * 2) pos

/-- qaoa::utility::ConvertToDecimal.  On the empty vector the unsigned
loop index z.size()-1 underflows and the first read z[pos] is out of
bounds in the source; the embedding returns outOfBounds there. -/
def ConvertToDecimal (z : List Nat) : Except QaoaError Nat :=
  match z with
  | [] => .error .outOfBounds
  | z0 :: rest => .ok (toDecimalLoop (z0 :: rest) 0 rest.length)

theorem toDecimalLoop_eq (z : List Nat) (pos : Nat) :
    ∀ k : Nat, toDecimalLoop z k pos
      = k * 2 ^ pos + sumTo (fun i => z.getD i 0 * 2 ^ i) (pos + 1) := by
  induction pos with
  | zero => intro k; simp [toDecimalLoop, sumTo]
  | succ pos ih =>
    intro k
    show toDecimalLoop z ((k + z.getD (pos + 1) 0) * 2) pos = _
    rw [ih]
    simp only [sumTo_succ]
    ring

theorem ConvertToDecimal_ne_nil (z : List Nat) (hz : z ≠ []) :
    ConvertToDecimal z = .ok (sumTo (fun i => z.getD i 0 * 2 ^ i) z.length) := by
  match z, hz with
  | z0 :: rest, _ =>
    show Except.ok (toDecimalLoop (z0 :: rest) 0 rest.length) = _
    rw [toDecimalLoop_eq]
    simp [List.length_cons]

theorem toBitsLoop_length (w : Nat) : ∀ k, (toBitsLoop k w).length = w := by
  induction w with
  | zero => intro k; rfl
  | succ w ih => intro k; simp [toBitsLoop, ih]

theorem toBitsLoop_le_one (w : Nat) :
    ∀ k, ∀ b ∈ toBitsLoop k w, b = 0 ∨ b = 1 := by
  induction w with
  | zero => intro k b hb; simp [toBitsLoop] at hb
  | succ w ih =>
    intro k b hb
    simp only [toBitsLoop, List.mem_cons] at hb
    rcases hb with h | h
    · omega
    · exact ih _ b h

theorem mod_two_pow_succ (k w : Nat) :
    k % 2 ^ (w + 1) = k % 2 + 2 * (k / 2 % 2 ^ w) := by
  have h1 : k % (2 * 2 ^ w) / 2 = k / 2 % 2 ^ w := Nat.mod_mul_right_div_self k 2 (2 ^ w)
  have h2 : k % (2 * 2 ^ w) % 2 = k % 2 := Nat.mod_mod_of_dvd k ⟨2 ^ w, rfl⟩
  have h3 : 2 ^ (w + 1) = 2 * 2 ^ w := by rw [pow_succ, Nat.mul_comm]
  rw [h3]
  have h4 := Nat.div_add_mod (k % (2 * 2 ^ w)) 2
  omega

/-- The bits written by the conversion loop represent k modulo 2 to the
width. -/
theorem toBitsLoop_sum (w : Nat) :
    ∀ k, sumTo (fun i => (toBitsLoop k w).getD i 0 * 2 ^ i) w = k % 2 ^ w := by
  induction w with
  | zero => intro k; simp [sumTo, Nat.mod_one]
  | succ w ih =>
    intro k
    rw [sumTo_shift]
    have hshift : (fun i => (toBitsLoop k (w + 1)).getD (i + 1) 0 * 2 ^ (i + 1))
        = fun i => 2 * ((toBitsLoop (k / 2) w).getD i 0 * 2 ^ i) := by
      funext i
      simp only [toBitsLoop, List.getD_cons_succ]
      ring
    calc (toBitsLoop k (w + 1)).getD 0 0 * 2 ^ 0
          + sumTo (fun i => (toBitsLoop k (w + 1)).getD (i + 1) 0 * 2 ^ (i + 1)) w
        = k % 2 + sumTo (fun i => 2 * ((toBitsLoop (k / 2) w).getD i 0 * 2 ^ i)) w := by
          rw [hshift]; simp [toBitsLoop]
      _ = k % 2 + 2 * (k / 2 % 2 ^ w) := by rw [sumTo_mul_left, ih]
      _ = k % 2 ^ (w + 1) := (mod_two_pow_succ k w).symm

/-- Encoding a vector of bits and decoding the result gives back the
vector, and the encoded value fits in the width of the vector. -/
theorem toBitsLoop_of_bits :
    ∀ z : List Nat, (∀ b ∈ z, b = 0 ∨ b = 1) →
      toBitsLoop (sumTo (fun i => z.getD i 0 * 2 ^ i) z.length) z.length = z
      ∧ sumTo (fun i => z.getD i 0 * 2 ^ i) z.length < 2 ^ z.length := by
  intro z
  induction z with
  | nil => intro _; exact ⟨rfl, by simp [sumTo]⟩
  | cons b tl ih =>
    intro hb
    have hbtl : ∀ x ∈ tl, x = 0 ∨ x = 1 := fun x hx => hb x (List.mem_cons_of_mem b hx)
    have hb0 : b = 0 ∨ b = 1 := hb b (List.mem_cons_self b tl)
    obtain ⟨ihbits, ihlt⟩ := ih hbtl
    have hsum : sumTo (fun i => (b :: tl).getD i 0 * 2 ^ i) (b :: tl).length
        = b + 2 * sumTo (fun i => tl.getD i 0 * 2 ^ i) tl.length := by
      rw [List.length_cons, sumTo_shift]
      have : (fun i => (b :: tl).getD (i + 1) 0 * 2 ^ (i + 1))
          = fun i => 2 * (tl.getD i 0 * 2 ^ i) := by
        funext i; simp only [List.getD_cons_succ]; ring
      rw [this, sumTo_mul_left]
      simp
    constructor
    · rw [hsum, List.length_cons]
      set s := sumTo (fun i => tl.getD i 0 * 2 ^ i) tl.length with hs
      have hmod : (b + 2 * s) % 2 = b := by omega
      have hdiv : (b + 2 * s) / 2 = s := by omega
      rw [toBitsLoop, hmod, hdiv, ihbits]
    · rw [hsum, List.length_cons]
      have hpow : 2 ^ (tl.length + 1) = 2 * 2 ^ tl.length := by
        rw [pow_succ, Nat.mul_comm]
      omega

/-- C2 (counterexample): the round trip DecodeToBits (EncodeFromBits bits)
fails on the empty bit-vector, although it only contains values in the set
with 0 and 1: ConvertToDecimal reads out of bounds there and returns no
value at all. -/
theorem C2_empty_vector_fails :
    (∀ b ∈ ([] : List Nat), b = 0 ∨ b = 1)
    ∧ ∀ k : Nat, ConvertToDecimal ([] : List Nat) ≠ .ok k := by
  refine ⟨by simp, fun k h => ?_⟩
  simp [ConvertToDecimal] at h

/-- C2 (amended): for every width w of at least 1 and every k below 2 to
the w, ConvertToDecimal recovers k from the output of ConvertToBinary;
and for every non-empty bit-vector with values in the set with 0 and 1,
ConvertToBinary applied to the output of ConvertToDecimal recovers the
vector. -/
theorem C2_encode_decode_round_trip :
    (∀ w k : Nat, 1 ≤ w → k < 2 ^ w →
      ∃ z, ConvertToBinary k w = .ok z ∧ ConvertToDecimal z = .ok k)
    ∧ (∀ z : List Nat, z ≠ [] → (∀ b ∈ z, b = 0 ∨ b = 1) →
      ∃ k, ConvertToDecimal z = .ok k ∧ ConvertToBinary k z.length = .ok z) := by
  constructor
  · intro w k hw hk
    refine ⟨toBitsLoop k w, ?_, ?_⟩
    · simp [ConvertToBinary, Nat.not_le_of_lt hk]
    · have hne : toBitsLoop k w ≠ [] := by
        intro h
        have := toBitsLoop_length w k
        rw [h] at this
        simp at this
        omega
      rw [ConvertToDecimal_ne_nil _ hne, toBitsLoop_length w k, toBitsLoop_sum w k,
        Nat.mod_eq_of_lt hk]
  · intro z hne hbits
    obtain ⟨hreco, hlt⟩ := toBitsLoop_of_bits z hbits
    refine ⟨sumTo (fun i => z.getD i 0 * 2 ^ i) z.length, ConvertToDecimal_ne_nil z hne, ?_⟩
    rw [ConvertToBinary, if_neg (Nat.not_le_of_lt hlt), hreco]

/-- C2 (witness): the amended round trip at width 3 with k equal to 5,
and at the bit-vector with entries 1 and 1. -/
theorem C2_round_trip_witness :
    (∃ z, ConvertToBinary 5 3 = .ok z ∧ ConvertToDecimal z = .ok 5)
    ∧ (∃ k, ConvertToDecimal [1, 1] = .ok k ∧ ConvertToBinary k 2 = .ok [1, 1]) :=
  ⟨C2_encode_decode_round_trip.1 3 5 (by omega) (by omega),
   C2_encode_decode_round_trip.2 [1, 1] (by simp) (by simp)⟩

/-- C10: ConvertToDecimal is total exactly on non-empty bit-vectors: on a
vector of length at least 1 it returns the sum of the bits weighted by the
powers of two, and on the empty vector the loop index underflows and the
read is out of bounds, modelled as the error outOfBounds. -/
theorem C10_decode_needs_nonempty :
    (∀ z : List Nat, z ≠ [] →
      ConvertToDecimal z = .ok (sumTo (fun i => z.getD i 0 * 2 ^ i) z.length))
    ∧ ConvertToDecimal [] = .error .outOfBounds :=
  ⟨ConvertToDecimal_ne_nil, rfl⟩

/-- C10 (witness): the decoding formula evaluated on the vector 1, 0, 1. -/
theorem C10_decode_witness : ConvertToDecimal [1, 0, 1] = .ok 5 :=
  (C10_decode_needs_nonempty.1 [1, 0, 1] (by simp)).trans rfl

/-- Quadratic form x^T.ADJ.x computed by the nested loops of the builder:
the adjacency matrix is stored row major as a flat vector of ints and the
colors are a vector of ints. -/
def qform (n : Nat) (adj : List Int) (colors : List Int) : Int :=
  sumTo (fun v => sumTo (fun u =>
    adj.getD (v * n + u) 0 * colors.getD v 0 * colors.getD u 0) n) n

/-- Colors of the vertices at global index x: the LSB-first bits of x with
every 0 bit remapped to -1, exactly as the builder loop rewrites xbin. -/
def colorsOf (n x : Nat) : List Int :=
  (toBitsLoop x n).map (fun b : Nat => if b = 0 then (-1 : Int) else (b : Int))

/-- Body of the builder loop of InitializeVectorAsMaxCutCostFunction at
global index x: decode x (through the asserting ConvertToBinary), remap
the bits to colors, compute the quadratic form, and derive the cut count;
the two evenness asserts are modelled as invariantViolation. -/
def cutAt (n : Nat) (adj : List Int) (num_edges : Int) (x : Nat) :
    Except QaoaError Int :=
  match ConvertToBinary x n with
  | .error e => .error e
  | .ok bits =>
    let colors := bits.map (fun b : Nat => if b = 0 then (-1 : Int) else (b : Int))
    let q := qform n adj colors
    if q % 2 ≠ 0 then .error .invariantViolation
    else if (num_edges - q / 2) % 2 ≠ 0 then .error .invariantViolation
    else .ok ((num_edges - q / 2) / 2)

/-- The builder loop over the global indices 0 .. i-1: stores each cut
count in the diagonal register and keeps the running maximum, which the
source initialises to 0. -/
def buildLoop (n : Nat) (adj : List Int) (num_edges : Int) :
    Nat → Except QaoaError (List Int × Int)
  | 0 => .ok ([], 0)
  | i + 1 =>
    match buildLoop n adj num_edges i with
    | .error e => .error e
    | .ok (d, m) =>
      match cutAt n adj num_edges i with
      | .error e => .error e
      | .ok cut => .ok (d ++ [cut], if cut > m then cut else m)

/-- qaoa::InitializeVectorAsMaxCutCostFunction in the single-process
embedding: the preliminary asserts on the adjacency matrix (size, null
diagonal, even sum of entries), then the loop over the 2^n global indices
storing each cut count as a complex number diag[i] = Type(cut, 0), and
the returned maximum cut. -/
noncomputable def InitializeVectorAsMaxCutCostFunction (n : Nat) (adj : List Int) :
    Except QaoaError (List (ℝ × ℝ) × Int) :=
  if adj.length ≠ n * n then .error .invariantViolation
  else if ¬ (∀ v ∈ List.range n, adj.getD (v * n + v) 0 = 0) then .error .invariantViolation
  else if adj.sum % 2 ≠ 0 then .error .invariantViolation
  else
    match buildLoop n adj (adj.sum / 2) (2 ^ n) with
    | .error e => .error e
    | .ok (d, m) => .ok (d.map (fun c : Int => ((c : ℝ), 0)), m)

theorem qform_eq_sum (n : Nat) (adj colors : List Int) :
    qform n adj colors = ∑ v ∈ Finset.range n, ∑ u ∈ Finset.range n,
      adj.getD (v * n + u) 0 * colors.getD v 0 * colors.getD u 0 := by
  rw [qform, sumTo_eq_sum]
  exact Finset.sum_congr rfl (fun v _ => sumTo_eq_sum _ n)

theorem list_sum_getD (l : List Int) :
    l.sum = ∑ i ∈ Finset.range l.length, l.getD i 0 := by
  induction l with
  | nil => simp
  | cons a tl ih =>
    rw [List.sum_cons, List.length_cons, Finset.sum_range_succ']
    simp only [List.getD_cons_succ, List.getD_cons_zero]
    rw [← ih]
    exact add_comm a tl.sum

theorem sum_double_index (g : Nat → Int) (n : Nat) :
    ∀ m, ∑ e ∈ Finset.range (m * n), g e
      = ∑ v ∈ Finset.range m, ∑ u ∈ Finset.range n, g (v * n + u) := by
  intro m
  induction m with
  | zero => simp
  | succ m ih =>
    rw [Finset.sum_range_succ, ← ih, Nat.succ_mul, Finset.sum_range_add]

theorem adj_sum_eq (n : Nat) (adj : List Int) (hlen : adj.length = n * n) :
    adj.sum = ∑ v ∈ Finset.range n, ∑ u ∈ Finset.range n, adj.getD (v * n + u) 0 := by
  rw [list_sum_getD, hlen, sum_double_index (fun e => adj.getD e 0) n n]

/-- Core parity argument: for a symmetric matrix and colors in -1 and 1,
the sum of all entries minus the quadratic form is divisible by 4.  The
diagonal entries contribute nothing because the square of a color is 1. -/
theorem four_dvd_cross (n : Nat) (a : Nat → Nat → Int) (c : Nat → Int)
    (hsym : ∀ v < n, ∀ u < n, a v u = a u v)
    (hc : ∀ v < n, c v = 1 ∨ c v = -1) :
    ∀ m, m ≤ n →
      (4 : Int) ∣ ∑ v ∈ Finset.range m, ∑ u ∈ Finset.range m, a v u * (1 - c v * c u) := by
  intro m
  induction m with
  | zero => intro _; simp
  | succ m ih =>
    intro hm
    have hmn : m ≤ n := Nat.le_of_succ_le hm
    have hmlt : m < n := hm
    have hinner : ∀ v ∈ Finset.range m,
        ∑ u ∈ Finset.range (m + 1), a v u * (1 - c v * c u)
        = (∑ u ∈ Finset.range m, a v u * (1 - c v * c u)) + a v m * (1 - c v * c m) :=
      fun v _ => Finset.sum_range_succ _ m
    have expand : ∑ v ∈ Finset.range (m + 1), ∑ u ∈ Finset.range (m + 1),
          a v u * (1 - c v * c u)
        = (∑ v ∈ Finset.range m, ∑ u ∈ Finset.range m, a v u * (1 - c v * c u))
          + (∑ v ∈ Finset.range m, a v m * (1 - c v * c m))
          + ((∑ u ∈ Finset.range m, a m u * (1 - c m * c u))
            + a m m * (1 - c m * c m)) := by
      rw [Finset.sum_range_succ, Finset.sum_congr rfl hinner, Finset.sum_add_distrib,
        Finset.sum_range_succ]
    have hdiagterm : a m m * (1 - c m * c m) = 0 := by
      rcases hc m hmlt with h | h <;> rw [h] <;> ring
    have hswap : ∑ v ∈ Finset.range m, a v m * (1 - c v * c m)
        = ∑ u ∈ Finset.range m, a m u * (1 - c m * c u) := by
      apply Finset.sum_congr rfl
      intro v hv
      have hvn : v < n := lt_of_lt_of_le (Finset.mem_range.mp hv) hmn
      rw [hsym v hvn m hmlt, mul_comm (c v) (c m)]
    have heven2 : (2 : Int) ∣ ∑ u ∈ Finset.range m, a m u * (1 - c m * c u) := by
      apply Finset.dvd_sum
      intro u hu
      have hun : u < n := lt_of_lt_of_le (Finset.mem_range.mp hu) hmn
      rcases hc m hmlt with h1 | h1 <;> rcases hc u hun with h2 | h2
      · exact ⟨0, by rw [h1, h2]; ring⟩
      · exact ⟨a m u, by rw [h1, h2]; ring⟩
      · exact ⟨a m u, by rw [h1, h2]; ring⟩
      · exact ⟨0, by rw [h1, h2]; ring⟩
    obtain ⟨s, hs⟩ := heven2
    obtain ⟨t, ht⟩ := ih hmn
    rw [expand, hdiagterm, add_zero, hswap, ht, hs]
    exact ⟨t + s, by ring⟩

theorem sub_qform_eq (n : Nat) (adj colors : List Int) (hlen : adj.length = n * n) :
    adj.sum - qform n adj colors
      = ∑ v ∈ Finset.range n, ∑ u ∈ Finset.range n,
          adj.getD (v * n + u) 0 * (1 - colors.getD v 0 * colors.getD u 0) := by
  rw [adj_sum_eq n adj hlen, qform_eq_sum, ← Finset.sum_sub_distrib]
  apply Finset.sum_congr rfl
  intro v _
  rw [← Finset.sum_sub_distrib]
  apply Finset.sum_congr rfl
  intro u _
  ring

/-- Under the checked graph invariants both divisions of the builder are
exact: the quadratic form is even, num_edges minus its half is even, and
the resulting cut count is one quarter of the difference between the sum
of the entries and the quadratic form. -/
theorem cut_exact (n : Nat) (adj colors : List Int)
    (hlen : adj.length = n * n)
    (hsym : ∀ v < n, ∀ u < n, adj.getD (v * n + u) 0 = adj.getD (u * n + v) 0)
    (heven : adj.sum % 2 = 0)
    (hc : ∀ v < n, colors.getD v 0 = 1 ∨ colors.getD v 0 = -1) :
    qform n adj colors % 2 = 0
    ∧ (adj.sum / 2 - qform n adj colors / 2) % 2 = 0
    ∧ adj.sum - qform n adj colors
        = 4 * ((adj.sum / 2 - qform n adj colors / 2) / 2) := by
  have h4 : (4 : Int) ∣ adj.sum - qform n adj colors := by
    rw [sub_qform_eq n adj colors hlen]
    exact four_dvd_cross n _ _ hsym hc n le_rfl
  have h2S : (2 : Int) ∣ adj.sum := Int.dvd_iff_emod_eq_zero.mpr heven
  obtain ⟨w, hw⟩ := h4
  obtain ⟨s, hs⟩ := h2S
  have h2q : (2 : Int) ∣ qform n adj colors := ⟨s - 2 * w, by omega⟩
  obtain ⟨t, ht⟩ := h2q
  have hS2 : adj.sum / 2 = s := by rw [hs]; exact Int.mul_ediv_cancel_left s two_ne_zero
  have hq2 : qform n adj colors / 2 = t := by
    rw [ht]; exact Int.mul_ediv_cancel_left t two_ne_zero
  refine ⟨by omega, ?_, ?_⟩
  · rw [hS2, hq2]; omega
  · rw [hS2, hq2]
    have hst : s - t = 2 * w := by omega
    rw [hst, Int.mul_ediv_cancel_left w two_ne_zero]
    omega

theorem map_colors_pm :
    ∀ z : List Nat, (∀ b ∈ z, b = 0 ∨ b = 1) → ∀ v < z.length,
      ((z.map fun b : Nat => if b = 0 then (-1 : Int) else (b : Int)).getD v 0 = 1
        ∨ (z.map fun b : Nat => if b = 0 then (-1 : Int) else (b : Int)).getD v 0 = -1) := by
  intro z
  induction z with
  | nil => intro _ v hv; simp at hv
  | cons b tl ih =>
    intro hb v hv
    cases v with
    | zero =>
      rcases hb b (List.mem_cons_self b tl) with h | h <;>
        simp [h, List.map_cons, List.getD_cons_zero]
    | succ v =>
      simp only [List.map_cons, List.getD_cons_succ]
      exact ih (fun x hx => hb x (List.mem_cons_of_mem b hx)) v (by simpa using hv)

theorem colorsOf_pm (n x : Nat) :
    ∀ v < n, (colorsOf n x).getD v 0 = 1 ∨ (colorsOf n x).getD v 0 = -1 := by
  intro v hv
  have := map_colors_pm (toBitsLoop x n) (toBitsLoop_le_one n x) v
    (by rw [toBitsLoop_length n x]; exact hv)
  exact this

theorem cutAt_ok (n : Nat) (adj : List Int)
    (hlen : adj.length = n * n)
    (hsym : ∀ v < n, ∀ u < n, adj.getD (v * n + u) 0 = adj.getD (u * n + v) 0)
    (heven : adj.sum % 2 = 0)
    (x : Nat) (hx : x < 2 ^ n) :
    cutAt n adj (adj.sum / 2) x
      = .ok ((adj.sum / 2 - qform n adj (colorsOf n x) / 2) / 2) := by
  obtain ⟨hq, hcut, _⟩ :=
    cut_exact n adj (colorsOf n x) hlen hsym heven (colorsOf_pm n x)
  have hbin : ConvertToBinary x n = .ok (toBitsLoop x n) := by
    rw [ConvertToBinary, if_neg (Nat.not_le_of_lt hx)]
  simp only [cutAt, hbin]
  show (if qform n adj (colorsOf n x) % 2 ≠ 0
          then (Except.error QaoaError.invariantViolation : Except QaoaError Int)
        else if (adj.sum / 2 - qform n adj (colorsOf n x) / 2) % 2 ≠ 0
          then Except.error QaoaError.invariantViolation
        else Except.ok ((adj.sum / 2 - qform n adj (colorsOf n x) / 2) / 2)) = _
  rw [if_neg (by omega), if_neg (by omega)]

theorem buildLoop_ok (n : Nat) (adj : List Int) (ne : Int) (g : Nat → Int) (N : Nat)
    (hok : ∀ x < N, cutAt n adj ne x = .ok (g x)) :
    ∀ i, i ≤ N → ∃ d m, buildLoop n adj ne i = .ok (d, m)
      ∧ d = (List.range i).map g ∧ 0 ≤ m ∧ (∀ x < i, g x ≤ m)
      ∧ (m = 0 ∨ ∃ x, x < N ∧ g x = m) := by
  intro i
  induction i with
  | zero =>
    intro _
    exact ⟨[], 0, rfl, by simp, le_refl 0,
      fun x hx => absurd hx (Nat.not_lt_zero x), Or.inl rfl⟩
  | succ i ih =>
    intro hi
    obtain ⟨d, m, heq, hd, hm0, hub, hat⟩ := ih (Nat.le_of_succ_le hi)
    have hcut := hok i hi
    refine ⟨d ++ [g i], if g i > m then g i else m, ?_, ?_, ?_, ?_, ?_⟩
    · show buildLoop n adj ne (i + 1) = _
      simp only [buildLoop]
      rw [heq, hcut]
    · rw [hd, List.range_succ, List.map_append]
      rfl
    · by_cases h : g i > m
      · rw [if_pos h]; omega
      · rw [if_neg h]; exact hm0
    · intro x hx
      by_cases h : g i > m
      · rw [if_pos h]
        rcases Nat.lt_succ_iff_lt_or_eq.mp hx with hx2 | hx2
        · exact le_of_lt (lt_of_le_of_lt (hub x hx2) h)
        · rw [hx2]
      · rw [if_neg h]
        rcases Nat.lt_succ_iff_lt_or_eq.mp hx with hx2 | hx2
        · exact hub x hx2
        · rw [hx2]; omega
    · by_cases h : g i > m
      · rw [if_pos h]; exact Or.inr ⟨i, hi, rfl⟩
      · rw [if_neg h]; exact hat

theorem toBitsLoop_zero : ∀ n, toBitsLoop 0 n = List.replicate n 0 := by
  intro n
  induction n with
  | zero => rfl
  | succ n ih => rw [toBitsLoop, Nat.zero_mod, Nat.zero_div, ih, List.replicate_succ]

theorem colorsOf_zero (n : Nat) : colorsOf n 0 = List.replicate n (-1 : Int) := by
  rw [colorsOf, toBitsLoop_zero, List.map_replicate]
  rfl

theorem colorsOf_zero_getD (n : Nat) : ∀ v < n, (colorsOf n 0).getD v 0 = -1 := by
  intro v hv
  rw [colorsOf_zero]
  have hlt : v < (List.replicate n (-1 : Int)).length := by
    rw [List.length_replicate]; exact hv
  rw [List.getD_eq_getElem _ _ hlt, List.getElem_replicate]

theorem qform_zero (n : Nat) (adj : List Int) (hlen : adj.length = n * n) :
    qform n adj (colorsOf n 0) = adj.sum := by
  rw [qform_eq_sum, adj_sum_eq n adj hlen]
  apply Finset.sum_congr rfl
  intro v hv
  apply Finset.sum_congr rfl
  intro u hu
  rw [colorsOf_zero_getD n v (Finset.mem_range.mp hv),
    colorsOf_zero_getD n u (Finset.mem_range.mp hu)]
  ring

/-- The cut count stored at global index 0 (all vertices colored -1) is
zero: no edge is cut. -/
theorem cut_at_zero (n : Nat) (adj : List Int) (hlen : adj.length = n * n) :
    (adj.sum / 2 - qform n adj (colorsOf n 0) / 2) / 2 = 0 := by
  rw [qform_zero n adj hlen, sub_self, Int.zero_ediv]

/-- Shared success lemma for the builder: under the graph invariants the
whole function succeeds, the diagonal register holds the cut counts in
order, and the returned maximum bounds them and is attained. -/
theorem init_ok (n : Nat) (adj : List Int)
    (hlen : adj.length = n * n)
    (hsym : ∀ v < n, ∀ u < n, adj.getD (v * n + u) 0 = adj.getD (u * n + v) 0)
    (hdiag : ∀ v < n, adj.getD (v * n + v) 0 = 0)
    (heven : adj.sum % 2 = 0) :
    ∃ d0 m, InitializeVectorAsMaxCutCostFunction n adj
        = .ok (d0.map (fun c : Int => ((c : ℝ), 0)), m)
      ∧ d0 = (List.range (2 ^ n)).map
          (fun x => (adj.sum / 2 - qform n adj (colorsOf n x) / 2) / 2)
      ∧ 0 ≤ m
      ∧ (∀ x < 2 ^ n, (adj.sum / 2 - qform n adj (colorsOf n x) / 2) / 2 ≤ m)
      ∧ (∃ x, x < 2 ^ n
          ∧ (adj.sum / 2 - qform n adj (colorsOf n x) / 2) / 2 = m) := by
  obtain ⟨d0, m, heq, hd0, hm0, hub, hat⟩ :=
    buildLoop_ok n adj (adj.sum / 2)
      (fun x => (adj.sum / 2 - qform n adj (colorsOf n x) / 2) / 2) (2 ^ n)
      (fun x hx => cutAt_ok n adj hlen hsym heven x hx) (2 ^ n) le_rfl
  refine ⟨d0, m, ?_, hd0, hm0, hub, ?_⟩
  · rw [InitializeVectorAsMaxCutCostFunction,
      if_neg (not_not_intro hlen),
      if_neg (not_not_intro (fun v hv => hdiag v (List.mem_range.mp hv))),
      if_neg (not_not_intro heven), heq]
  · rcases hat with h0 | hx
    · exact ⟨0, by positivity, by rw [cut_at_zero n adj hlen, h0]⟩
    · exact hx

theorem range_map_getD {α : Type} (d : α) (g : Nat → α) (N x : Nat) (hx : x < N) :
    ((List.range N).map g).getD x d = g x := by
  have h1 : x < ((List.range N).map g).length := by
    rw [List.length_map, List.length_range]; exact hx
  rw [List.getD_eq_getElem _ _ h1, List.getElem_map, List.getElem_range]

theorem map_real_getD (d0 : List Int) (x : Nat) (hx : x < d0.length) :
    (d0.map (fun c : Int => ((c : ℝ), (0 : ℝ)))).getD x (0, 0)
      = ((d0.getD x 0 : ℝ), (0 : ℝ)) := by
  have h1 : x < (d0.map (fun c : Int => ((c : ℝ), (0 : ℝ)))).length := by
    rw [List.length_map]; exact hx
  rw [List.getD_eq_getElem _ _ h1, List.getElem_map, List.getD_eq_getElem _ _ hx]

/-- C1: for an adjacency matrix satisfying the section 3 invariants, the
builder succeeds; at every global index x it stores, as a complex value
with zero imaginary part, the cut count (num_edges - q/2)/2 where q is
the quadratic form over the colors obtained from the LSB-first bits of x
remapped to -1 and 1; and the returned max_cost is the maximum of the
cut counts over all global indices (it bounds them and is attained). -/
theorem C1_build_maxcut_cost (n : Nat) (adj : List Int)
    (hlen : adj.length = n * n)
    (hsym : ∀ v < n, ∀ u < n, adj.getD (v * n + u) 0 = adj.getD (u * n + v) 0)
    (hdiag : ∀ v < n, adj.getD (v * n + v) 0 = 0)
    (heven : adj.sum % 2 = 0) :
    ∃ d m, InitializeVectorAsMaxCutCostFunction n adj = .ok (d, m)
      ∧ d.length = 2 ^ n
      ∧ (∀ x < 2 ^ n, d.getD x (0, 0)
          = ((((adj.sum / 2 - qform n adj (colorsOf n x) / 2) / 2 : Int) : ℝ), (0 : ℝ)))
      ∧ (∀ x < 2 ^ n, (adj.sum / 2 - qform n adj (colorsOf n x) / 2) / 2 ≤ m)
      ∧ (∃ x, x < 2 ^ n ∧ (adj.sum / 2 - qform n adj (colorsOf n x) / 2) / 2 = m) := by
  obtain ⟨d0, m, heq, hd0, hm0, hub, hat⟩ := init_ok n adj hlen hsym hdiag heven
  refine ⟨d0.map (fun c : Int => ((c : ℝ), 0)), m, heq, ?_, ?_, hub, hat⟩
  · rw [List.length_map, hd0, List.length_map, List.length_range]
  · intro x hx
    have hxlen : x < d0.length := by
      rw [hd0, List.length_map, List.length_range]; exact hx
    rw [map_real_getD d0 x hxlen, hd0, range_map_getD _ _ _ _ hx]

/-- C1 (witness): the builder applied to the single-edge graph on two
vertices. -/
theorem C1_build_maxcut_cost_witness :
    ∃ d m, InitializeVectorAsMaxCutCostFunction 2 [0, 1, 1, 0] = .ok (d, m)
      ∧ d.length = 2 ^ 2
      ∧ (∀ x < 2 ^ 2, d.getD x (0, 0)
          = ((((([0, 1, 1, 0] : List Int).sum / 2
              - qform 2 [0, 1, 1, 0] (colorsOf 2 x) / 2) / 2 : Int) : ℝ), (0 : ℝ)))
      ∧ (∀ x < 2 ^ 2, (([0, 1, 1, 0] : List Int).sum / 2
            - qform 2 [0, 1, 1, 0] (colorsOf 2 x) / 2) / 2 ≤ m)
      ∧ (∃ x, x < 2 ^ 2 ∧ (([0, 1, 1, 0] : List Int).sum / 2
            - qform 2 [0, 1, 1, 0] (colorsOf 2 x) / 2) / 2 = m) :=
  C1_build_maxcut_cost 2 [0, 1, 1, 0] (by decide) (by decide) (by decide) (by decide)

/-- C3: for a symmetric adjacency matrix with null diagonal and even
entry sum, and any coloring with values in -1 and 1, the quadratic form
is even and num_edges minus its half is even, so both divisions of the
builder loop are exact and the two asserts never fire: the loop body
returns a value at every global index. -/
theorem C3_exactness_asserts_hold (n : Nat) (adj : List Int)
    (hlen : adj.length = n * n)
    (hsym : ∀ v < n, ∀ u < n, adj.getD (v * n + u) 0 = adj.getD (u * n + v) 0)
    (hdiag : ∀ v < n, adj.getD (v * n + v) 0 = 0)
    (heven : adj.sum % 2 = 0) :
    (∀ colors : List Int, (∀ v < n, colors.getD v 0 = 1 ∨ colors.getD v 0 = -1) →
      qform n adj colors % 2 = 0
      ∧ (adj.sum / 2 - qform n adj colors / 2) % 2 = 0)
    ∧ (∀ x < 2 ^ n, ∃ c : Int, cutAt n adj (adj.sum / 2) x = .ok c) := by
  refine ⟨fun colors hc => ?_, fun x hx => ⟨_, cutAt_ok n adj hlen hsym heven x hx⟩⟩
  obtain ⟨h1, h2, _⟩ := cut_exact n adj colors hlen hsym heven hc
  exact ⟨h1, h2⟩

/-- C3 (witness): the parity facts at the single-edge graph on two
vertices, with the coloring 1, -1 and the loop body at global index 1. -/
theorem C3_exactness_witness :
    (qform 2 [0, 1, 1, 0] [1, -1] % 2 = 0
      ∧ (([0, 1, 1, 0] : List Int).sum / 2 - qform 2 [0, 1, 1, 0] [1, -1] / 2) % 2 = 0)
    ∧ (∃ c : Int, cutAt 2 [0, 1, 1, 0] (([0, 1, 1, 0] : List Int).sum / 2) 1 = .ok c) :=
  ⟨(C3_exactness_asserts_hold 2 [0, 1, 1, 0] (by decide) (by decide) (by decide)
      (by decide)).1 [1, -1] (by decide),
   (C3_exactness_asserts_hold 2 [0, 1, 1, 0] (by decide) (by decide) (by decide)
      (by decide)).2 1 (by decide)⟩

/-- With non-negative entries the cut count lies between 0 and num_edges:
the quadratic form is bounded by the entry sum in absolute value. -/
theorem cut_bounds (n : Nat) (adj colors : List Int)
    (hlen : adj.length = n * n)
    (hsym : ∀ v < n, ∀ u < n, adj.getD (v * n + u) 0 = adj.getD (u * n + v) 0)
    (heven : adj.sum % 2 = 0)
    (hpos : ∀ v < n, ∀ u < n, 0 ≤ adj.getD (v * n + u) 0)
    (hc : ∀ v < n, colors.getD v 0 = 1 ∨ colors.getD v 0 = -1) :
    0 ≤ (adj.sum / 2 - qform n adj colors / 2) / 2
    ∧ (adj.sum / 2 - qform n adj colors / 2) / 2 ≤ adj.sum / 2 := by
  obtain ⟨hq2, hc2, hw⟩ := cut_exact n adj colors hlen hsym heven hc
  have hqle : qform n adj colors ≤ adj.sum := by
    rw [qform_eq_sum, adj_sum_eq n adj hlen]
    apply Finset.sum_le_sum
    intro v hv
    apply Finset.sum_le_sum
    intro u hu
    have hv2 := Finset.mem_range.mp hv
    have hu2 := Finset.mem_range.mp hu
    have ha := hpos v hv2 u hu2
    rcases hc v hv2 with h1 | h1 <;> rcases hc u hu2 with h2 | h2 <;>
      rw [h1, h2] <;> nlinarith
  have hqge : -adj.sum ≤ qform n adj colors := by
    rw [qform_eq_sum, adj_sum_eq n adj hlen, ← Finset.sum_neg_distrib]
    apply Finset.sum_le_sum
    intro v hv
    rw [← Finset.sum_neg_distrib]
    apply Finset.sum_le_sum
    intro u hu
    have hv2 := Finset.mem_range.mp hv
    have hu2 := Finset.mem_range.mp hu
    have ha := hpos v hv2 u hu2
    rcases hc v hv2 with h1 | h1 <;> rcases hc u hu2 with h2 | h2 <;>
      rw [h1, h2] <;> nlinarith
  have hS : 2 * (adj.sum / 2) = adj.sum :=
    Int.mul_ediv_cancel' (Int.dvd_iff_emod_eq_zero.mpr heven)
  constructor <;> nlinarith [hw, hqle, hqge, hS]

/-- C9: under the section 3 invariants (with non-negative entries) every
stored cost value lies between 0 and num_edges, and so does the returned
max_cost. -/
theorem C9_cost_bounded (n : Nat) (adj : List Int)
    (hlen : adj.length = n * n)
    (hsym : ∀ v < n, ∀ u < n, adj.getD (v * n + u) 0 = adj.getD (u * n + v) 0)
    (hdiag : ∀ v < n, adj.getD (v * n + v) 0 = 0)
    (heven : adj.sum % 2 = 0)
    (hpos : ∀ v < n, ∀ u < n, 0 ≤ adj.getD (v * n + u) 0) :
    ∃ d m, InitializeVectorAsMaxCutCostFunction n adj = .ok (d, m)
      ∧ (∀ x < 2 ^ n,
          d.getD x (0, 0)
            = ((((adj.sum / 2 - qform n adj (colorsOf n x) / 2) / 2 : Int) : ℝ), (0 : ℝ))
          ∧ 0 ≤ (adj.sum / 2 - qform n adj (colorsOf n x) / 2) / 2
          ∧ (adj.sum / 2 - qform n adj (colorsOf n x) / 2) / 2 ≤ adj.sum / 2)
      ∧ 0 ≤ m ∧ m ≤ adj.sum / 2 := by
  obtain ⟨d0, m, heq, hd0, hm0, hub, hat⟩ := init_ok n adj hlen hsym hdiag heven
  refine ⟨d0.map (fun c : Int => ((c : ℝ), 0)), m, heq, ?_, hm0, ?_⟩
  · intro x hx
    have hxlen : x < d0.length := by
      rw [hd0, List.length_map, List.length_range]; exact hx
    refine ⟨?_, (cut_bounds n adj (colorsOf n x) hlen hsym heven hpos (colorsOf_pm n x)).1,
      (cut_bounds n adj (colorsOf n x) hlen hsym heven hpos (colorsOf_pm n x)).2⟩
    rw [map_real_getD d0 x hxlen, hd0, range_map_getD _ _ _ _ hx]
  · obtain ⟨x, hx, hgx⟩ := hat
    rw [← hgx]
    exact (cut_bounds n adj (colorsOf n x) hlen hsym heven hpos (colorsOf_pm n x)).2

/-- C9 (witness): the bound at the single-edge graph on two vertices. -/
theorem C9_cost_bounded_witness :
    ∃ d m, InitializeVectorAsMaxCutCostFunction 2 [0, 1, 1, 0] = .ok (d, m)
      ∧ (∀ x < 2 ^ 2,
          d.getD x (0, 0)
            = ((((([0, 1, 1, 0] : List Int).sum / 2
                - qform 2 [0, 1, 1, 0] (colorsOf 2 x) / 2) / 2 : Int) : ℝ), (0 : ℝ))
          ∧ 0 ≤ (([0, 1, 1, 0] : List Int).sum / 2
              - qform 2 [0, 1, 1, 0] (colorsOf 2 x) / 2) / 2
          ∧ (([0, 1, 1, 0] : List Int).sum / 2
              - qform 2 [0, 1, 1, 0] (colorsOf 2 x) / 2) / 2
            ≤ ([0, 1, 1, 0] : List Int).sum / 2)
      ∧ 0 ≤ m ∧ m ≤ ([0, 1, 1, 0] : List Int).sum / 2 :=
  C9_cost_bounded 2 [0, 1, 1, 0] (by decide) (by decide) (by decide) (by decide) (by decide)

/-- C7 (counterexample): the matrix with rows (0, 2) and (0, 0) is not
symmetric but passes the size, zero-diagonal, and even-sum checks, and
the builder returns a cost array instead of aborting: the source never
compares A at (v, u) with A at (u, v). -/
theorem C7_asymmetric_not_detected :
    ([0, 2, 0, 0] : List Int).getD (0 * 2 + 1) 0
        ≠ ([0, 2, 0, 0] : List Int).getD (1 * 2 + 0) 0
    ∧ ([0, 2, 0, 0] : List Int).length = 2 * 2
    ∧ (∀ v < 2, ([0, 2, 0, 0] : List Int).getD (v * 2 + v) 0 = 0)
    ∧ ([0, 2, 0, 0] : List Int).sum % 2 = 0
    ∧ ∃ d m, InitializeVectorAsMaxCutCostFunction 2 [0, 2, 0, 0] = .ok (d, m) := by
  refine ⟨by decide, by decide, by decide, by decide, ?_⟩
  have hb : buildLoop 2 [0, 2, 0, 0] (([0, 2, 0, 0] : List Int).sum / 2) (2 ^ 2)
      = .ok ([0, 1, 1, 0], 1) := by rfl
  refine ⟨[(0 : Int), 1, 1, 0].map (fun c : Int => ((c : ℝ), 0)), 1, ?_⟩
  rw [InitializeVectorAsMaxCutCostFunction, if_neg (by decide), if_neg (by decide),
    if_neg (by decide), hb]

/-- C7 (amended): the builder never checks symmetry; it aborts with
invariantViolation exactly on the conditions it does check, namely a
wrong size, a non-zero diagonal entry, or an odd sum of entries. -/
theorem C7_checked_invariants_abort (n : Nat) (adj : List Int)
    (h : adj.length ≠ n * n
        ∨ (∃ v, v < n ∧ adj.getD (v * n + v) 0 ≠ 0)
        ∨ adj.sum % 2 ≠ 0) :
    InitializeVectorAsMaxCutCostFunction n adj = .error .invariantViolation := by
  rw [InitializeVectorAsMaxCutCostFunction]
  by_cases h1 : adj.length ≠ n * n
  · rw [if_pos h1]
  rw [if_neg h1]
  by_cases h2 : ¬ (∀ v ∈ List.range n, adj.getD (v * n + v) 0 = 0)
  · rw [if_pos h2]
  rw [if_neg h2]
  by_cases h3 : adj.sum % 2 ≠ 0
  · rw [if_pos h3]
  exfalso
  rcases h with hcase | ⟨v, hv, hne⟩ | hcase
  · exact h1 hcase
  · exact hne (not_not.mp h2 v (List.mem_range.mpr hv))
  · exact h3 hcase

/-- C7 (amended, witness): the one-vertex matrix with the single entry 1
fails the zero-diagonal check and the builder aborts. -/
theorem C7_checked_invariants_abort_witness :
    InitializeVectorAsMaxCutCostFunction 1 [1] = .error .invariantViolation :=
  C7_checked_invariants_abort 1 [1] (Or.inr (Or.inl ⟨0, by decide, by decide⟩))

/-- Multiplication of std::complex values, on pairs (re, im). -/
def cmul (a b : ℝ × ℝ) : ℝ × ℝ :=
  (a.1 * b.1 - a.2 * b.2, a.1 * b.2 + a.2 * b.1)

/-- std::norm of a complex value: the squared magnitude re*re + im*im. -/
def cnorm (a : ℝ × ℝ) : ℝ := a.1 * a.1 + a.2 * a.2

/-- qaoa::ImplementQaoaLayerBasedOnCostFunction in the single-process
embedding: the source asserts equal local and equal global sizes (one
check here), then multiplies every amplitude psi[i] by
complex(cos(gamma * diag[i].real()), -sin(gamma * diag[i].real())). -/
noncomputable def ImplementQaoaLayerBasedOnCostFunction
    (psi diag : List (ℝ × ℝ)) (gamma : ℝ) : Except QaoaError (List (ℝ × ℝ)) :=
  if psi.length ≠ diag.length then .error .sizeMismatch
  else .ok ((List.range psi.length).map (fun i =>
    cmul (psi.getD i (0, 0))
      (Real.cos (gamma * (diag.getD i (0, 0)).1),
       -Real.sin (gamma * (diag.getD i (0, 0)).1))))

/-- qaoa::GetExpectationValueFromCostFunction in the single-process
embedding.  The source performs no size check at all: it sums
diag[i].real() * norm(psi[i]) over the local indices of psi.  When the
cost register is shorter than the amplitude register the loop reads past
its end (undefined behaviour), modelled as outOfBounds. -/
noncomputable def GetExpectationValueFromCostFunction
    (psi diag : List (ℝ × ℝ)) : Except QaoaError ℝ :=
  if diag.length < psi.length then .error .outOfBounds
  else .ok (sumTo (fun i => (diag.getD i (0, 0)).1 * cnorm (psi.getD i (0, 0)))
    psi.length)

theorem sumTo_congr {α : Type} [Add α] [Zero α] (f g : Nat → α) (n : Nat)
    (h : ∀ i < n, f i = g i) : sumTo f n = sumTo g n := by
  induction n with
  | zero => rfl
  | succ n ih =>
    rw [sumTo_succ, sumTo_succ, ih (fun i hi => h i (Nat.lt_succ_of_lt hi)),
      h n (Nat.lt_succ_self n)]

/-- C4: for arrays of equal size the expectation value is the sum over
all indices of cost times squared amplitude magnitude; for a uniform
state on 2 to the n indices it is the arithmetic mean of the costs. -/
theorem C4_expectation_is_weighted_sum (psi diag : List (ℝ × ℝ))
    (h : psi.length = diag.length) :
    GetExpectationValueFromCostFunction psi diag
      = .ok (sumTo (fun i => (diag.getD i (0, 0)).1 * cnorm (psi.getD i (0, 0)))
          psi.length)
    ∧ ∀ n : Nat, psi.length = 2 ^ n →
      (∀ i < psi.length, cnorm (psi.getD i (0, 0)) = 1 / 2 ^ n) →
      GetExpectationValueFromCostFunction psi diag
        = .ok ((sumTo (fun i => (diag.getD i (0, 0)).1) (2 ^ n)) / 2 ^ n) := by
  have hok : GetExpectationValueFromCostFunction psi diag
      = .ok (sumTo (fun i => (diag.getD i (0, 0)).1 * cnorm (psi.getD i (0, 0)))
          psi.length) := by
    rw [GetExpectationValueFromCostFunction, if_neg (by omega)]
  refine ⟨hok, fun n hn hu => ?_⟩
  rw [hok]
  congr 1
  rw [hn, sumTo_eq_sum, sumTo_eq_sum, Finset.sum_div]
  apply Finset.sum_congr rfl
  intro i hi
  have hi2 : i < psi.length := by rw [hn]; exact Finset.mem_range.mp hi
  rw [hu i hi2]
  ring

/-- C4 (witness): a uniform two-index state with costs 3 and 5 has
expectation 4, the mean. -/
theorem C4_expectation_witness :
    GetExpectationValueFromCostFunction
      [((1 : ℝ) / 2, 1 / 2), (1 / 2, -1 / 2)] [((3 : ℝ), 0), (5, 0)] = .ok 4 := by
  have h := (C4_expectation_is_weighted_sum
      [((1 : ℝ) / 2, 1 / 2), (1 / 2, -1 / 2)] [((3 : ℝ), 0), (5, 0)] rfl).2 1
    (by norm_num)
    (by
      intro i hi
      have hi2 : i < 2 := by simpa using hi
      interval_cases i <;>
        norm_num [cnorm, List.getD_cons_zero, List.getD_cons_succ])
  rw [h]
  congr 1
  show ((0 : ℝ) + (3 : ℝ) + (5 : ℝ)) / 2 ^ 1 = (4 : ℝ)
  norm_num

theorem cnorm_cmul (a b : ℝ × ℝ) : cnorm (cmul a b) = cnorm a * cnorm b := by
  simp only [cnorm, cmul]
  ring

theorem cnorm_phase (θ : ℝ) : cnorm (Real.cos θ, -Real.sin θ) = 1 := by
  have h := Real.sin_sq_add_cos_sq θ
  simp only [cnorm]
  nlinarith [h]

/-- C6: for arrays of equal size the phase layer multiplies every
amplitude by complex(cos(gamma*cost), -sin(gamma*cost)) and nothing
else; every squared magnitude is unchanged and the expectation value is
the same before and after. -/
theorem C6_phase_layer_preserves_measure (psi diag : List (ℝ × ℝ)) (gamma : ℝ)
    (h : psi.length = diag.length) :
    ∃ l, ImplementQaoaLayerBasedOnCostFunction psi diag gamma = .ok l
      ∧ l.length = psi.length
      ∧ (∀ i < psi.length, l.getD i (0, 0)
          = cmul (psi.getD i (0, 0))
              (Real.cos (gamma * (diag.getD i (0, 0)).1),
               -Real.sin (gamma * (diag.getD i (0, 0)).1)))
      ∧ (∀ i < psi.length, cnorm (l.getD i (0, 0)) = cnorm (psi.getD i (0, 0)))
      ∧ GetExpectationValueFromCostFunction l diag
          = GetExpectationValueFromCostFunction psi diag := by
  refine ⟨(List.range psi.length).map (fun i =>
      cmul (psi.getD i (0, 0))
        (Real.cos (gamma * (diag.getD i (0, 0)).1),
         -Real.sin (gamma * (diag.getD i (0, 0)).1))), ?_, ?_, ?_, ?_, ?_⟩
  · rw [ImplementQaoaLayerBasedOnCostFunction, if_neg (not_not_intro h)]
  · rw [List.length_map, List.length_range]
  · intro i hi
    rw [range_map_getD _ _ _ _ hi]
  · intro i hi
    rw [range_map_getD _ _ _ _ hi, cnorm_cmul, cnorm_phase, mul_one]
  · have hlen : ((List.range psi.length).map (fun i =>
        cmul (psi.getD i (0, 0))
          (Real.cos (gamma * (diag.getD i (0, 0)).1),
           -Real.sin (gamma * (diag.getD i (0, 0)).1)))).length = psi.length := by
      rw [List.length_map, List.length_range]
    rw [GetExpectationValueFromCostFunction, GetExpectationValueFromCostFunction,
      hlen, if_neg (by omega), if_neg (by omega)]
    congr 1
    apply sumTo_congr
    intro i hi
    rw [range_map_getD _ _ _ _ hi, cnorm_cmul, cnorm_phase, mul_one]

/-- C6 (witness): the layer at a one-index state with cost 0. -/
theorem C6_phase_layer_witness :
    ∃ l, ImplementQaoaLayerBasedOnCostFunction [((1 : ℝ), 2)] [((0 : ℝ), 0)] 3 = .ok l
      ∧ l.length = ([((1 : ℝ), 2)] : List (ℝ × ℝ)).length
      ∧ (∀ i < ([((1 : ℝ), 2)] : List (ℝ × ℝ)).length, l.getD i (0, 0)
          = cmul (([((1 : ℝ), 2)] : List (ℝ × ℝ)).getD i (0, 0))
              (Real.cos (3 * (([((0 : ℝ), 0)] : List (ℝ × ℝ)).getD i (0, 0)).1),
               -Real.sin (3 * (([((0 : ℝ), 0)] : List (ℝ × ℝ)).getD i (0, 0)).1)))
      ∧ (∀ i < ([((1 : ℝ), 2)] : List (ℝ × ℝ)).length,
          cnorm (l.getD i (0, 0)) = cnorm (([((1 : ℝ), 2)] : List (ℝ × ℝ)).getD i (0, 0)))
      ∧ GetExpectationValueFromCostFunction l [((0 : ℝ), 0)]
          = GetExpectationValueFromCostFunction [((1 : ℝ), 2)] [((0 : ℝ), 0)] :=
  C6_phase_layer_preserves_measure [((1 : ℝ), 2)] [((0 : ℝ), 0)] 3 rfl

/-- C8 (counterexample): with one amplitude and two cost entries the
local sizes differ, yet GetExpectationValueFromCostFunction returns an
expectation value computed from the mismatched arrays instead of
aborting: the source contains no size assert. -/
theorem C8_size_mismatch_not_detected :
    ([((1 : ℝ), 0)] : List (ℝ × ℝ)).length
        ≠ ([((5 : ℝ), 0), (7, 0)] : List (ℝ × ℝ)).length
    ∧ GetExpectationValueFromCostFunction [((1 : ℝ), 0)] [((5 : ℝ), 0), (7, 0)]
        = .ok 5 := by
  refine ⟨by decide, ?_⟩
  rw [GetExpectationValueFromCostFunction, if_neg (by decide)]
  congr 1
  show (0 : ℝ) + (5 : ℝ) * cnorm ((1 : ℝ), (0 : ℝ)) = 5
  norm_num [cnorm]

/-- C8 (amended): the expectation function performs no size check: when
the cost array is at least as long as the amplitude array it returns the
accumulated sum over the amplitude indices even when the sizes differ,
and when the cost array is shorter the loop reads out of bounds. -/
theorem C8_expectation_no_size_check (psi diag : List (ℝ × ℝ)) :
    (psi.length ≤ diag.length →
      GetExpectationValueFromCostFunction psi diag
        = .ok (sumTo (fun i => (diag.getD i (0, 0)).1 * cnorm (psi.getD i (0, 0)))
            psi.length))
    ∧ (diag.length < psi.length →
      GetExpectationValueFromCostFunction psi diag = .error .outOfBounds) := by
  constructor
  · intro hle
    rw [GetExpectationValueFromCostFunction, if_neg (by omega)]
  · intro hlt
    rw [GetExpectationValueFromCostFunction, if_pos hlt]

/-- C8 (amended, witness): one amplitude against two cost entries gives
the value accumulated over the single amplitude index. -/
theorem C8_no_size_check_witness :
    GetExpectationValueFromCostFunction [((1 : ℝ), 0)] [((2 : ℝ), 0), (3, 0)]
      = .ok 2 := by
  have h := (C8_expectation_no_size_check [((1 : ℝ), 0)] [((2 : ℝ), 0), (3, 0)]).1
    (by decide)
  rw [h]
  congr 1
  show (0 : ℝ) + (2 : ℝ) * cnorm ((1 : ℝ), (0 : ℝ)) = 2
  norm_num [cnorm]

/-- C cast (int) of a floating-point value: truncation toward zero. -/
noncomputable def ctrunc (x : ℝ) : Int := if 0 ≤ x then ⌊x⌋ else ⌈x⌉

/-- Histogram loop of GetHistogramFromCostFunction over the local indices
0 .. i-1: the bucket index is the int cast of diag[i].real(), asserted to
lie in [0, max_value] (modelled as rangeError), and norm(psi[i]) is added
into that bucket. -/
noncomputable def histLoop (psi diag : List (ℝ × ℝ)) (max_value : Int) :
    Nat → Except QaoaError (List ℝ)
  | 0 => .ok (List.replicate (max_value.toNat + 1) 0)
  | i + 1 =>
    match histLoop psi diag max_value i with
    | .error e => .error e
    | .ok h =>
      if 0 ≤ ctrunc (diag.getD i (0, 0)).1
          ∧ ctrunc (diag.getD i (0, 0)).1 ≤ max_value then
        .ok (h.set (ctrunc (diag.getD i (0, 0)).1).toNat
          (h.getD (ctrunc (diag.getD i (0, 0)).1).toNat 0
            + cnorm (psi.getD i (0, 0))))
      else .error .rangeError

/-- qaoa::GetHistogramFromCostFunction in the single-process embedding:
the source asserts equal local and global sizes and max_value > 0, then
runs the accumulation loop and returns the histogram of size
max_value + 1. -/
noncomputable def GetHistogramFromCostFunction
    (psi diag : List (ℝ × ℝ)) (max_value : Int) : Except QaoaError (List ℝ) :=
  if psi.length ≠ diag.length then .error .sizeMismatch
  else if max_value ≤ 0 then .error .rangeError
  else histLoop psi diag max_value psi.length

theorem histLoop_succ (psi diag : List (ℝ × ℝ)) (M : Int) (i : Nat) (h : List ℝ)
    (hh : histLoop psi diag M i = .ok h) :
    histLoop psi diag M (i + 1)
      = if 0 ≤ ctrunc (diag.getD i (0, 0)).1
            ∧ ctrunc (diag.getD i (0, 0)).1 ≤ M then
          .ok (h.set (ctrunc (diag.getD i (0, 0)).1).toNat
            (h.getD (ctrunc (diag.getD i (0, 0)).1).toNat 0
              + cnorm (psi.getD i (0, 0))))
        else .error .rangeError := by
  rw [histLoop, hh]

theorem ctrunc_intCast (c : Int) : ctrunc ((c : ℤ) : ℝ) = c := by
  rw [ctrunc]
  split_ifs with h
  · exact Int.floor_intCast c
  · exact Int.ceil_intCast c

theorem getD_set_eq (l : List ℝ) (k : Nat) (v : ℝ) (hk : k < l.length) :
    (l.set k v).getD k 0 = v := by
  rw [List.getD_eq_getElem?_getD, List.getElem?_set, if_pos rfl, if_pos hk]
  rfl

theorem getD_set_ne (l : List ℝ) (k j : Nat) (v : ℝ) (hne : k ≠ j) :
    (l.set k v).getD j 0 = l.getD j 0 := by
  rw [List.getD_eq_getElem?_getD, List.getElem?_set, if_neg hne,
    ← List.getD_eq_getElem?_getD]

theorem replicate_getD (n : Nat) (x : ℝ) (j : Nat) (hj : j < n) :
    (List.replicate n x).getD j 0 = x := by
  rw [List.getD_eq_getElem?_getD, List.getElem?_replicate, if_pos hj]
  rfl

/-- Loop invariant of the histogram: after processing the first j local
indices of an integer-valued, in-range cost array, bucket b holds the
accumulated squared magnitudes of exactly the indices with cost b. -/
theorem histLoop_ok (psi diag : List (ℝ × ℝ)) (M : Int) (cost : Nat → Int)
    (hint : ∀ i < psi.length, (diag.getD i (0, 0)).1 = (cost i : ℝ))
    (hrange : ∀ i < psi.length, 0 ≤ cost i ∧ cost i ≤ M) :
    ∀ j, j ≤ psi.length → ∃ h, histLoop psi diag M j = .ok h
      ∧ h.length = M.toNat + 1
      ∧ ∀ b : Int, 0 ≤ b → b ≤ M →
          h.getD b.toNat 0
            = sumTo (fun i => if cost i = b then cnorm (psi.getD i (0, 0)) else 0) j := by
  intro j
  induction j with
  | zero =>
    intro _
    refine ⟨List.replicate (M.toNat + 1) 0, rfl, List.length_replicate _ _, ?_⟩
    intro b hb0 hbM
    rw [replicate_getD _ _ _ (by omega)]
    rfl
  | succ j ih =>
    intro hj
    obtain ⟨h, hh, hlen, hbuck⟩ := ih (Nat.le_of_succ_le hj)
    have hjlt : j < psi.length := hj
    have hcut : ctrunc (diag.getD j (0, 0)).1 = cost j := by
      rw [hint j hjlt, ctrunc_intCast]
    obtain ⟨hc0, hcM⟩ := hrange j hjlt
    rw [histLoop_succ psi diag M j h hh, hcut, if_pos ⟨hc0, hcM⟩]
    refine ⟨_, rfl, ?_, ?_⟩
    · rw [List.length_set, hlen]
    · intro b hb0 hbM
      by_cases hbc : cost j = b
      · have htn : (cost j).toNat = b.toNat := by rw [hbc]
        rw [htn, getD_set_eq h _ _ (by rw [hlen]; omega), hbuck b hb0 hbM, sumTo_succ,
          if_pos hbc]
      · have htn : (cost j).toNat ≠ b.toNat := by omega
        rw [getD_set_ne h _ _ _ htn, hbuck b hb0 hbM, sumTo_succ, if_neg hbc, add_zero]

/-- C5 (counterexample): the source buckets by the int cast of the cost,
which truncates toward zero, not by rounding: with the single cost value
3/2 (inside [0, 2]) the whole mass lands in bucket 1, while rounding
would give bucket 2, and no index has cost exactly 1. -/
theorem C5_buckets_truncate_not_round :
    GetHistogramFromCostFunction [((1 : ℝ), 0)] [((3 / 2 : ℝ), 0)] 2 = .ok [0, 1, 0]
    ∧ round ((3 : ℝ) / 2) = 2 := by
  constructor
  · rw [GetHistogramFromCostFunction, if_neg (by decide), if_neg (by norm_num)]
    have h0 : histLoop [((1 : ℝ), 0)] [((3 / 2 : ℝ), 0)] 2 0 = .ok [0, 0, 0] := rfl
    have hcut : ctrunc (([((3 / 2 : ℝ), 0)] : List (ℝ × ℝ)).getD 0 (0, 0)).1 = 1 := by
      show ctrunc ((3 : ℝ) / 2) = 1
      rw [ctrunc, if_pos (by norm_num)]
      norm_num [Int.floor_eq_iff]
    show histLoop [((1 : ℝ), 0)] [((3 / 2 : ℝ), 0)] 2 (0 + 1) = .ok [0, 1, 0]
    rw [histLoop_succ _ _ _ _ _ h0, hcut, if_pos (by omega)]
    congr 1
    show ([(0 : ℝ), 0, 0].set 1 ([(0 : ℝ), 0, 0].getD 1 0 + cnorm ((1 : ℝ), (0 : ℝ))))
      = [0, 1, 0]
    norm_num [cnorm, List.set]
  · rw [round_eq]
    norm_num [Int.floor_eq_iff]

/-- C5 (amended): for equal sizes, positive max_value, and integer cost
values in [0, max_value], the histogram has max_value + 1 buckets and
bucket b holds the total squared magnitude of exactly the indices whose
cost is b; the bucket index is the truncating int cast of the cost, which
on integer costs is the cost itself. -/
theorem C5_histogram_integer_costs (psi diag : List (ℝ × ℝ)) (M : Int)
    (cost : Nat → Int)
    (hlen : psi.length = diag.length)
    (hM : 0 < M)
    (hint : ∀ i < psi.length, (diag.getD i (0, 0)).1 = (cost i : ℝ))
    (hrange : ∀ i < psi.length, 0 ≤ cost i ∧ cost i ≤ M) :
    ∃ hist, GetHistogramFromCostFunction psi diag M = .ok hist
      ∧ hist.length = M.toNat + 1
      ∧ ∀ b : Int, 0 ≤ b → b ≤ M →
          hist.getD b.toNat 0
            = sumTo (fun i => if cost i = b then cnorm (psi.getD i (0, 0)) else 0)
                psi.length := by
  obtain ⟨h, hh, hl, hb⟩ := histLoop_ok psi diag M cost hint hrange psi.length le_rfl
  refine ⟨h, ?_, hl, hb⟩
  rw [GetHistogramFromCostFunction, if_neg (not_not_intro hlen), if_neg (by omega), hh]

/-- C5 (amended, witness): a single amplitude of unit mass with integer
cost 1 and max_value 1. -/
theorem C5_histogram_witness :
    ∃ hist, GetHistogramFromCostFunction [((1 : ℝ), 0)] [((1 : ℝ), 0)] 1 = .ok hist
      ∧ hist.length = (1 : Int).toNat + 1
      ∧ ∀ b : Int, 0 ≤ b → b ≤ 1 →
          hist.getD b.toNat 0
            = sumTo (fun i => if (fun _ : Nat => (1 : Int)) i = b
                then cnorm (([((1 : ℝ), 0)] : List (ℝ × ℝ)).getD i (0, 0)) else 0)
                ([((1 : ℝ), 0)] : List (ℝ × ℝ)).length :=
  C5_histogram_integer_costs [((1 : ℝ), 0)] [((1 : ℝ), 0)] 1 (fun _ => 1) rfl
    (by norm_num)
    (by
      intro i hi
      have hi2 : i < 1 := by simpa using hi
      interval_cases i
      norm_num [List.getD_cons_zero])
    (by intro i hi; exact ⟨by norm_num, by norm_num⟩)

end qaoa
